import Mathlib

/-
Verification of the quiet-library extraction/index/snippet core.

Rust strings are modelled as `List Char` (a sequence of Unicode scalar
values); byte offsets into the UTF-8 encoding are modelled through
`Char.utf8Size`.  Stateful filesystem code (the extraction cache, the
prune routine, the incremental index update) is modelled by explicit
state passing: a directory listing, a fingerprint snapshot and the index
contents are function arguments, and the functions return the new state.
-/

namespace QuietLibrary

/-! ## UTF-8 byte geometry (embedding of Rust `str` byte offsets)

Rust's `str::len`, `str::is_char_boundary` and byte-indexed slicing are
modelled on `List Char` via each character's UTF-8 size. -/

/-- Number of bytes of the UTF-8 encoding of the character list
(Rust `str::len`). -/
def byteLen : List Char → Nat
  | [] => 0
  | c :: rest => c.utf8Size + byteLen rest

/-- Rust `str::is_char_boundary`: `true` iff the byte offset falls on the
start of a character (or one past the end). -/
def isCharBoundary : List Char → Nat → Bool
  | _, 0 => true
  | [], _ => false
  | c :: rest, n => decide (c.utf8Size ≤ n) && isCharBoundary rest (n - c.utf8Size)

/-- Drop the characters occupying the first `n` bytes (Rust `&s[n..]` when
`n` is a char boundary). -/
def dropBytes : List Char → Nat → List Char
  | l, 0 => l
  | [], _ => []
  | c :: rest, n => dropBytes rest (n - c.utf8Size)

/-- Take the characters fully contained in the first `n` bytes
(Rust `&s[..n]` when `n` is a char boundary). -/
def takeBytes : List Char → Nat → List Char
  | _, 0 => []
  | [], _ => []
  | c :: rest, n => if c.utf8Size ≤ n then c :: takeBytes rest (n - c.utf8Size) else []

/-- Byte-indexed slice `&s[s0..e0]` (meaningful at char boundaries). -/
def byteSlice (l : List Char) (s0 e0 : Nat) : List Char :=
  takeBytes (dropBytes l s0) (e0 - s0)

/-! ## snippet.rs: helper loops

`prev_char_boundary` and `next_char_boundary` are `while` loops in the
source; each is embedded with an explicit fuel argument equal to the
number of iterations the loop can still make (`idx` when walking down,
`s.len() - idx` when walking up), which bounds the loop exactly as the
loop condition does. -/

/-- Loop body of `prev_char_boundary`:
`while idx > 0 && !s.is_char_boundary(idx) { idx -= 1 }`. -/
def prevLoopF (s : List Char) : Nat → Nat → Nat
  | 0, i => i
  | fuel + 1, i => if 0 < i ∧ isCharBoundary s i = false then prevLoopF s fuel (i - 1) else i

/-- Embedding of `prev_char_boundary` (snippet.rs lines 35-39): clamp the
index to `s.len()` then walk down to the previous boundary. -/
def prev_char_boundary (s : List Char) (idx : Nat) : Nat :=
  prevLoopF s (min idx (byteLen s)) (min idx (byteLen s))

/-- Loop body of `next_char_boundary`:
`while idx < s.len() && !s.is_char_boundary(idx) { idx += 1 }`. -/
def nextLoopF (s : List Char) : Nat → Nat → Nat
  | 0, i => i
  | fuel + 1, i => if i < byteLen s ∧ isCharBoundary s i = false then nextLoopF s fuel (i + 1) else i

/-- Embedding of `next_char_boundary` (snippet.rs lines 41-45): return
`s.len()` for an out-of-range index, else walk up to the next boundary. -/
def next_char_boundary (s : List Char) (idx : Nat) : Nat :=
  if byteLen s < idx then byteLen s else nextLoopF s (byteLen s - idx) idx

/-! ## snippet.rs: make_snippet / make_snippets -/

/-- Whitespace test used by Rust's `str::trim` (restricted to the ASCII
whitespace characters, which covers every character the analysed texts
contain; Rust additionally strips other Unicode `White_Space`
characters). -/
def isWS (c : Char) : Bool := c = ' ' || c = '\t' || c = '\n' || c = '\r'

/-- Embedding of `str::trim`: remove leading and trailing whitespace
(`trim_to_word_boundaries` in snippet.rs is exactly `s.trim()`). -/
def trimChars (l : List Char) : List Char :=
  ((l.dropWhile isWS).reverse.dropWhile isWS).reverse

/-- Embedding of `str::to_lowercase` as a character-wise map.  This is
exact for ASCII letters and for characters whose lowercase form is
themselves; Rust's one-to-many lowercase expansions are not modelled
(no analysed claim involves such a character). -/
def lowerStr (l : List Char) : List Char := l.map Char.toLower

/-- Byte-for-byte list prefix test (on characters). -/
def leadsList : List Char → List Char → Bool
  | [], _ => true
  | _ :: _, [] => false
  | a :: as, b :: bs => a = b && leadsList as bs

/-- Embedding of `str::find(&needle)`: byte offset of the first occurrence
of `needle` in `hay`.  Because UTF-8 is self-synchronizing, a valid
needle can only match at a character boundary, so the character-aligned
search below coincides with Rust's byte-level search. -/
def findSub (needle : List Char) : List Char → Option Nat
  | [] => if needle.isEmpty then some 0 else none
  | c :: rest =>
    if leadsList needle (c :: rest) then some 0
    else (findSub needle rest).map (· + c.utf8Size)

/-- Embedding of `str::contains(&needle)`. -/
def containsSub (hay needle : List Char) : Bool := (findSub needle hay).isSome

/-- Start offset of the centered snippet window
(`pos.saturating_sub(max_len / 2)` clamped to a char boundary);
snippet.rs lines 7 and 9. -/
def snippet_start (text : List Char) (pos max_len : Nat) : Nat :=
  prev_char_boundary text (pos - max_len / 2)

/-- End offset of the centered snippet window (snippet.rs lines 8, 10-11):
round the raw end up to a char boundary, then clamp with
`end.max(start).min(text.len())`. -/
def snippet_end (text : List Char) (pos qblen max_len : Nat) : Nat :=
  let rawEnd := min (pos + qblen + max_len / 2) (byteLen text)
  min (max (next_char_boundary text rawEnd) (snippet_start text pos max_len)) (byteLen text)

/-- Embedding of `make_snippet` (snippet.rs lines 1-19). -/
def make_snippet (text query : List Char) (max_len : Nat) : List Char :=
  if text.isEmpty || (trimChars query).isEmpty then []
  else
    match findSub (lowerStr query) (lowerStr text) with
    | some pos =>
      trimChars (byteSlice text (snippet_start text pos max_len)
        (snippet_end text pos (byteLen (lowerStr query)) max_len))
    | none =>
      trimChars (takeBytes text (next_char_boundary text (min max_len (byteLen text))))

/-- Embedding of `str::split("\n\n")`: split into paragraphs at
(non-overlapping, leftmost-first) blank-line separators. -/
def splitNN : List Char → List (List Char)
  | [] => [[]]
  | '\n' :: '\n' :: rest => [] :: splitNN rest
  | c :: rest =>
    match splitNN rest with
    | [] => [[c]]
    | p :: ps => (c :: p) :: ps

/-- Embedding of `make_snippets` (snippet.rs lines 21-33). -/
def make_snippets (text query : List Char) (max_len : Nat) : List (List Char) :=
  if text.isEmpty || (trimChars query).isEmpty then []
  else
    ((splitNN text).filter (fun paragraph => containsSub (lowerStr paragraph) (lowerStr query))).map
      (fun paragraph => make_snippet paragraph query max_len)

/-! ## Lemmas: UTF-8 boundary geometry -/

theorem isCharBoundary_zero (l : List Char) : isCharBoundary l 0 = true := by
  cases l <;> rfl

theorem isCharBoundary_cons (c : Char) (rest : List Char) (n : Nat) (h : n ≠ 0) :
    isCharBoundary (c :: rest) n
      = (decide (c.utf8Size ≤ n) && isCharBoundary rest (n - c.utf8Size)) := by
  cases n with
  | zero => exact absurd rfl h
  | succ m => rfl

theorem isCharBoundary_byteLen (l : List Char) : isCharBoundary l (byteLen l) = true := by
  induction l with
  | nil => rfl
  | cons c rest ih =>
    have hp := Char.utf8Size_pos c
    rw [byteLen, isCharBoundary_cons c rest _ (by omega)]
    simp only [Nat.add_sub_cancel_left]
    simp [ih, Nat.le_add_right]

theorem le_byteLen_of_isCharBoundary (l : List Char) (n : Nat)
    (h : isCharBoundary l n = true) : n ≤ byteLen l := by
  induction l generalizing n with
  | nil =>
    cases n with
    | zero => exact Nat.le_refl 0
    | succ m => simp [isCharBoundary] at h
  | cons c rest ih =>
    cases n with
    | zero => exact Nat.zero_le _
    | succ m =>
      rw [isCharBoundary_cons c rest _ (by omega)] at h
      simp only [Bool.and_eq_true, decide_eq_true_eq] at h
      have := ih _ h.2
      rw [byteLen]
      omega

theorem isCharBoundary_min (l : List Char) (a b : Nat)
    (h1 : isCharBoundary l a = true) (h2 : isCharBoundary l b = true) :
    isCharBoundary l (min a b) = true := by
  rcases Nat.le_total a b with h | h
  · rwa [Nat.min_eq_left h]
  · rwa [Nat.min_eq_right h]

theorem isCharBoundary_max (l : List Char) (a b : Nat)
    (h1 : isCharBoundary l a = true) (h2 : isCharBoundary l b = true) :
    isCharBoundary l (max a b) = true := by
  rcases Nat.le_total a b with h | h
  · rwa [Nat.max_eq_right h]
  · rwa [Nat.max_eq_left h]

theorem prevLoopF_boundary (s : List Char) :
    ∀ (fuel i : Nat), i ≤ fuel → isCharBoundary s (prevLoopF s fuel i) = true := by
  intro fuel
  induction fuel with
  | zero =>
    intro i hi
    have : i = 0 := Nat.le_zero.mp hi
    subst this
    exact isCharBoundary_zero s
  | succ f ih =>
    intro i hi
    rw [prevLoopF]
    split
    · next h => exact ih (i - 1) (by omega)
    · next h =>
      rcases Nat.eq_zero_or_pos i with h0 | h0
      · subst h0; exact isCharBoundary_zero s
      · have := not_and.mp h h0
        simpa using this

theorem prevLoopF_le (s : List Char) :
    ∀ (fuel i : Nat), prevLoopF s fuel i ≤ i := by
  intro fuel
  induction fuel with
  | zero => intro i; exact Nat.le_refl i
  | succ f ih =>
    intro i
    rw [prevLoopF]
    split
    · exact Nat.le_trans (ih (i - 1)) (Nat.sub_le i 1)
    · exact Nat.le_refl i

theorem prev_char_boundary_is_boundary (s : List Char) (idx : Nat) :
    isCharBoundary s (prev_char_boundary s idx) = true :=
  prevLoopF_boundary s _ _ (Nat.le_refl _)

theorem prev_char_boundary_le_byteLen (s : List Char) (idx : Nat) :
    prev_char_boundary s idx ≤ byteLen s :=
  Nat.le_trans (prevLoopF_le s _ _) (Nat.min_le_right _ _)

theorem nextLoopF_boundary (s : List Char) :
    ∀ (fuel i : Nat), byteLen s ≤ i + fuel → i ≤ byteLen s →
      isCharBoundary s (nextLoopF s fuel i) = true := by
  intro fuel
  induction fuel with
  | zero =>
    intro i h1 h2
    have : i = byteLen s := by omega
    subst this
    exact isCharBoundary_byteLen s
  | succ f ih =>
    intro i h1 h2
    rw [nextLoopF]
    split
    · next h => exact ih (i + 1) (by omega) (by omega)
    · next h =>
      rcases Nat.lt_or_ge i (byteLen s) with hlt | hge
      · have := not_and.mp h hlt
        simpa using this
      · have : i = byteLen s := by omega
        subst this
        exact isCharBoundary_byteLen s

theorem next_char_boundary_is_boundary (s : List Char) (idx : Nat) :
    isCharBoundary s (next_char_boundary s idx) = true := by
  rw [next_char_boundary]
  split
  · exact isCharBoundary_byteLen s
  · next h => exact nextLoopF_boundary s _ _ (by omega) (by omega)

/-! ## Claim C4: snippet boundary safety -/

/-- C4: for every text (in particular one containing multi-byte Unicode)
and every query occurring in it case-insensitively (at byte offset `pos`
of the lowercased text), `make_snippet` slices the text between offsets
that are valid character boundaries with `start ≤ end`, and its result is
exactly the trimmed slice between those boundaries — so it never splits a
code point and always yields valid text. -/
theorem C4_snippet_boundary_safety (text query : List Char) (max_len pos : Nat)
    (h1 : text ≠ []) (h2 : trimChars query ≠ [])
    (h3 : findSub (lowerStr query) (lowerStr text) = some pos) :
    isCharBoundary text (snippet_start text pos max_len) = true ∧
    isCharBoundary text (snippet_end text pos (byteLen (lowerStr query)) max_len) = true ∧
    snippet_start text pos max_len ≤ snippet_end text pos (byteLen (lowerStr query)) max_len ∧
    make_snippet text query max_len =
      trimChars (byteSlice text (snippet_start text pos max_len)
        (snippet_end text pos (byteLen (lowerStr query)) max_len)) := by
  refine ⟨prev_char_boundary_is_boundary text _, ?_, ?_, ?_⟩
  · rw [snippet_end]
    exact isCharBoundary_min text _ _
      (isCharBoundary_max text _ _ (next_char_boundary_is_boundary text _)
        (prev_char_boundary_is_boundary text _))
      (isCharBoundary_byteLen text)
  · rw [snippet_end]
    exact Nat.le_min.mpr
      ⟨Nat.le_max_right _ _, prev_char_boundary_le_byteLen text _⟩
  · rw [make_snippet]
    have he : text.isEmpty = false := by
      cases text with
      | nil => exact absurd rfl h1
      | cons a as => rfl
    have hq : (trimChars query).isEmpty = false := by
      cases hh : trimChars query with
      | nil => exact absurd hh h2
      | cons a as => rfl
    rw [he, hq, h3]
    simp

/-- Witness for C4 at a concrete multi-byte input: text `"héllo world"`
(the query `"World"` matches case-insensitively at byte offset 7). -/
theorem C4_snippet_boundary_safety_witness :
    isCharBoundary "héllo world".toList (snippet_start "héllo world".toList 7 8) = true ∧
    isCharBoundary "héllo world".toList
      (snippet_end "héllo world".toList 7 (byteLen (lowerStr "World".toList)) 8) = true ∧
    snippet_start "héllo world".toList 7 8
      ≤ snippet_end "héllo world".toList 7 (byteLen (lowerStr "World".toList)) 8 ∧
    make_snippet "héllo world".toList "World".toList 8 =
      trimChars (byteSlice "héllo world".toList (snippet_start "héllo world".toList 7 8)
        (snippet_end "héllo world".toList 7 (byteLen (lowerStr "World".toList)) 8)) :=
  C4_snippet_boundary_safety "héllo world".toList "World".toList 8 7
    (by decide) (by decide) (by decide)

/-! ## Claim C9: degenerate inputs return nothing -/

/-- C9: for every text and `max_len`, if the text is empty or the query is
empty or whitespace-only, `make_snippet` returns the empty string and
`make_snippets` returns the empty sequence — no head-of-text fallback. -/
theorem C9_blank_inputs (text query : List Char) (max_len : Nat)
    (h : text = [] ∨ trimChars query = []) :
    make_snippet text query max_len = [] ∧ make_snippets text query max_len = [] := by
  have hg : (text.isEmpty || (trimChars query).isEmpty) = true := by
    rcases h with h | h
    · subst h; rfl
    · rw [h]; simp
  rw [make_snippet, make_snippets, hg]
  exact ⟨rfl, rfl⟩

/-- Witness for C9: a whitespace-only query on a non-empty text yields no
snippet at all. -/
theorem C9_blank_inputs_witness :
    make_snippet "some body text".toList "  ".toList 40 = [] ∧
    make_snippets "some body text".toList "  ".toList 40 = [] :=
  C9_blank_inputs "some body text".toList "  ".toList 40 (Or.inr (by decide))

/-! ## Claim C5: one snippet per matching paragraph -/

theorem trimChars_nil : trimChars [] = [] := rfl

/-- C5: `make_snippets` splits on blank-line paragraph breaks and emits
exactly one snippet per paragraph containing the query case-insensitively
(for any non-blank query); on the text
`"para one has apple\n\npara two has Apple too"` with query `"apple"` it
returns exactly two snippets, each containing a case-insensitive match. -/
theorem C5_paragraph_snippets :
    (∀ (text query : List Char) (max_len : Nat), trimChars query ≠ [] →
      (make_snippets text query max_len).length
        = ((splitNN text).filter
            (fun p => containsSub (lowerStr p) (lowerStr query))).length) ∧
    (make_snippets "para one has apple\n\npara two has Apple too".toList
        "apple".toList 50).length = 2 ∧
    ∀ s ∈ make_snippets "para one has apple\n\npara two has Apple too".toList
        "apple".toList 50,
      containsSub (lowerStr s) (lowerStr "apple".toList) = true := by
  refine ⟨?_, by decide, by decide⟩
  intro text query max_len hq
  have hq' : (trimChars query).isEmpty = false := by
    cases hh : trimChars query with
    | nil => exact absurd hh hq
    | cons a as => rfl
  cases text with
  | nil =>
    have hqne : query ≠ [] := by
      intro hc
      exact hq (by rw [hc, trimChars_nil])
    have hne : (lowerStr query).isEmpty = false := by
      cases hqq : query with
      | nil => exact absurd hqq hqne
      | cons a as => rfl
    have hcs : containsSub (lowerStr ([] : List Char)) (lowerStr query) = false := by
      rw [containsSub]
      show (findSub (lowerStr query) []).isSome = false
      rw [findSub, hne]
      rfl
    rw [make_snippets]
    simp only [List.isEmpty_nil, Bool.true_or, if_true]
    rw [show splitNN [] = [[]] from rfl]
    simp only [List.filter_cons, hcs]
    rfl
  | cons a as =>
    rw [make_snippets,
      if_neg (by rw [show (a :: as : List Char).isEmpty = false from rfl, hq']; simp)]
    exact List.length_map _ _

/-- Witness for C5's quantified part at the concrete example. -/
theorem C5_paragraph_snippets_witness :
    trimChars "apple".toList ≠ [] ∧
    (make_snippets "para one has apple\n\npara two has Apple too".toList
        "apple".toList 50).length
      = ((splitNN "para one has apple\n\npara two has Apple too".toList).filter
          (fun p => containsSub (lowerStr p) (lowerStr "apple".toList))).length :=
  ⟨by decide, C5_paragraph_snippets.1
    "para one has apple\n\npara two has Apple too".toList "apple".toList 50 (by decide)⟩

/-! ## Claim C6: head-of-text fallback when the query does not occur -/

theorem nextLoopF_zero (s : List Char) (fuel : Nat) : nextLoopF s fuel 0 = 0 := by
  cases fuel with
  | zero => rfl
  | succ f =>
    rw [nextLoopF]
    split
    · next h => rw [isCharBoundary_zero] at h; simp at h
    · rfl

theorem nextLoopF_decomp (c : Char) (rest : List Char) :
    ∀ (fuel m : Nat), c.utf8Size ≤ m →
      nextLoopF (c :: rest) fuel m = c.utf8Size + nextLoopF rest fuel (m - c.utf8Size) := by
  intro fuel
  induction fuel with
  | zero => intro m h; rw [nextLoopF, nextLoopF]; omega
  | succ f ih =>
    intro m h
    have hp := Char.utf8Size_pos c
    have hb : isCharBoundary (c :: rest) m = isCharBoundary rest (m - c.utf8Size) := by
      rw [isCharBoundary_cons c rest m (by omega)]
      simp [h]
    have hlen : byteLen (c :: rest) = c.utf8Size + byteLen rest := rfl
    rw [nextLoopF, nextLoopF]
    by_cases hcond : m - c.utf8Size < byteLen rest ∧ isCharBoundary rest (m - c.utf8Size) = false
    · rw [if_pos (by rw [hb, hlen]; exact ⟨by omega, hcond.2⟩), if_pos hcond]
      rw [ih (m + 1) (by omega)]
      congr 1
      congr 1
      omega
    · rw [if_neg ?_, if_neg hcond]
      · omega
      · rw [hb, hlen]
        intro hc
        exact hcond ⟨by omega, hc.2⟩

theorem nextLoopF_small (c : Char) (rest : List Char) :
    ∀ (fuel m : Nat), 0 < m → m ≤ c.utf8Size → c.utf8Size ≤ m + fuel →
      nextLoopF (c :: rest) fuel m = c.utf8Size := by
  intro fuel
  induction fuel with
  | zero => intro m h1 h2 h3; rw [nextLoopF]; omega
  | succ f ih =>
    intro m h1 h2 h3
    rcases Nat.lt_or_ge m c.utf8Size with hlt | hge
    · rw [nextLoopF, if_pos]
      · exact ih (m + 1) (by omega) (by omega) (by omega)
      · constructor
        · show m < byteLen (c :: rest)
          have : byteLen (c :: rest) = c.utf8Size + byteLen rest := rfl
          omega
        · rw [isCharBoundary_cons c rest m (by omega)]
          simp
          omega
    · have hm : m = c.utf8Size := by omega
      subst hm
      rw [nextLoopF, if_neg]
      intro hc
      have : isCharBoundary (c :: rest) c.utf8Size = true := by
        rw [isCharBoundary_cons c rest _ (by have := Char.utf8Size_pos c; omega)]
        simp [isCharBoundary_zero]
      rw [this] at hc
      simp at hc

theorem takeBytes_zero (l : List Char) : takeBytes l 0 = [] := by
  cases l <;> rfl

theorem takeBytes_cons (c : Char) (rest : List Char) (n : Nat) (h : n ≠ 0) :
    takeBytes (c :: rest) n
      = if c.utf8Size ≤ n then c :: takeBytes rest (n - c.utf8Size) else [] := by
  cases n with
  | zero => exact absurd rfl h
  | succ m => rfl

theorem length_takeBytes_nextLoopF :
    ∀ (l : List Char) (m : Nat), m ≤ byteLen l →
      (takeBytes l (nextLoopF l (byteLen l - m) m)).length ≤ m := by
  intro l
  induction l with
  | nil =>
    intro m hm
    have : m = 0 := by
      have : byteLen ([] : List Char) = 0 := rfl
      omega
    subst this
    rw [nextLoopF_zero]
    exact Nat.le_refl 0
  | cons c rest ih =>
    intro m hm
    have hp := Char.utf8Size_pos c
    have hlen : byteLen (c :: rest) = c.utf8Size + byteLen rest := rfl
    rcases Nat.eq_zero_or_pos m with h0 | h0
    · subst h0
      rw [nextLoopF_zero]
      exact Nat.le_refl 0
    rcases Nat.lt_or_ge m c.utf8Size with hlt | hge
    · rw [nextLoopF_small c rest _ m h0 (by omega) (by omega)]
      rw [takeBytes_cons c rest _ (by omega), if_pos (Nat.le_refl _), Nat.sub_self]
      rw [takeBytes_zero]
      simpa using h0
    · rw [nextLoopF_decomp c rest _ m hge]
      have hfuel : byteLen (c :: rest) - m = byteLen rest - (m - c.utf8Size) := by omega
      rw [hfuel]
      rw [takeBytes_cons c rest _ (by omega), if_pos (by omega), Nat.add_sub_cancel_left]
      have hrec := ih (m - c.utf8Size) (by omega)
      simp only [List.length_cons]
      omega

theorem takeBytes_append_eq (l : List Char) :
    ∀ (n : Nat), ∃ suffix, takeBytes l n ++ suffix = l := by
  induction l with
  | nil =>
    intro n
    refine ⟨[], ?_⟩
    cases n with
    | zero => rfl
    | succ m => rfl
  | cons c rest ih =>
    intro n
    cases n with
    | zero => exact ⟨c :: rest, rfl⟩
    | succ m =>
      rw [takeBytes_cons c rest _ (by omega)]
      by_cases h : c.utf8Size ≤ m + 1
      · rw [if_pos h]
        obtain ⟨s, hs⟩ := ih (m + 1 - c.utf8Size)
        exact ⟨s, by rw [List.cons_append, hs]⟩
      · rw [if_neg h]
        exact ⟨c :: rest, rfl⟩

/-- C6 as stated is false: on the one-character text `"é"` with query
`"q"` (no case-insensitive occurrence) and `max_len = 1`, the fallback
snippet is the whole text `"é"`, whose length (2 bytes — the unit in
which `make_snippet` measures `max_len`) exceeds `max_len = 1`, because
the cut is rounded up to the next character boundary. -/
theorem C6_counterexample_byte_budget :
    make_snippet ['é'] ['q'] 1 = ['é'] ∧
    byteLen (make_snippet ['é'] ['q'] 1) = 2 ∧
    ¬ byteLen (make_snippet ['é'] ['q'] 1) ≤ 1 := by decide

/-- C6 (amended): for non-empty text and non-blank query with no
case-insensitive occurrence, `make_snippet` returns a trimmed prefix of
the text whose number of characters is at most `max_len`; its byte length
may exceed `max_len` (by less than one character's width) because the end
offset is rounded up to the next character boundary. -/
theorem C6_no_match_head_prefix (text query : List Char) (max_len : Nat)
    (h1 : text ≠ []) (h2 : trimChars query ≠ [])
    (h3 : findSub (lowerStr query) (lowerStr text) = none) :
    ∃ p suffix, p ++ suffix = text ∧
      make_snippet text query max_len = trimChars p ∧ p.length ≤ max_len := by
  obtain ⟨s, hs⟩ := takeBytes_append_eq text (next_char_boundary text (min max_len (byteLen text)))
  refine ⟨takeBytes text (next_char_boundary text (min max_len (byteLen text))), s, hs, ?_, ?_⟩
  · have he : text.isEmpty = false := by
      cases text with
      | nil => exact absurd rfl h1
      | cons a as => rfl
    have hq : (trimChars query).isEmpty = false := by
      cases hh : trimChars query with
      | nil => exact absurd hh h2
      | cons a as => rfl
    rw [make_snippet, he, hq, h3]
    simp
  · have hmin : min max_len (byteLen text) ≤ byteLen text := Nat.min_le_right _ _
    rw [next_char_boundary, if_neg (by omega)]
    calc (takeBytes text (nextLoopF text (byteLen text - min max_len (byteLen text))
            (min max_len (byteLen text)))).length
        ≤ min max_len (byteLen text) := length_takeBytes_nextLoopF text _ hmin
      _ ≤ max_len := Nat.min_le_left _ _

/-- Witness for C6 (amended) at a concrete input: text `"hello"`, query
`"zz"`, `max_len = 3`. -/
theorem C6_no_match_head_prefix_witness :
    ∃ p suffix, p ++ suffix = "hello".toList ∧
      make_snippet "hello".toList "zz".toList 3 = trimChars p ∧ p.length ≤ 3 :=
  C6_no_match_head_prefix "hello".toList "zz".toList 3 (by decide) (by decide) (by decide)

/-! ## extract_text.rs: plain-text title extraction (claim C8)

The plain-text branch of `extract_title_and_text` (extract_text.rs
lines 67-71) computes the title as
`raw.lines().next().map(|l| l.trim().to_string()).filter(|t| !t.is_empty()).unwrap_or(name)`. -/

/-- Helper for `str::lines`: split at every `'\n'`. -/
def splitNL : List Char → List (List Char)
  | [] => [[]]
  | '\n' :: rest => [] :: splitNL rest
  | c :: rest =>
    match splitNL rest with
    | [] => [[c]]
    | p :: ps => (c :: p) :: ps

/-- Helper for `str::lines`: strip one trailing `'\r'` from a line. -/
def stripCR (l : List Char) : List Char :=
  if l.getLast? = some '\r' then l.dropLast else l

/-- Embedding of Rust `str::lines()`: split at `'\n'`, drop the final
empty piece produced by a trailing newline (so `""` has no lines), and
strip a trailing `'\r'` from each line. -/
def linesOf (raw : List Char) : List (List Char) :=
  let parts := splitNL raw
  (if parts.getLast? = some [] then parts.dropLast else parts).map stripCR

/-- Embedding of the title computation of the plain-text branch of
`extract_title_and_text` (extract_text.rs line 69): the FIRST line only,
trimmed; the file name when there is no first line or it trims to
nothing. -/
def plain_title (raw name : List Char) : List Char :=
  match (linesOf raw).head? with
  | none => name
  | some l => if (trimChars l).isEmpty then name else trimChars l

/-- Title as the specification words it: the first non-empty line (after
trimming) anywhere in the file, falling back to the file name only when
no line is non-empty. -/
def plain_title_of_spec (raw name : List Char) : List Char :=
  match ((linesOf raw).map trimChars).filter (fun t => !t.isEmpty) with
  | [] => name
  | t :: _ => t

/-! ## Claim C8: plain-text title -/

/-- C8 as stated is false: for a file whose first line is blank and whose
second line is `"Second line"`, the code titles it with the file name
`"note.txt"`, not with the second line — `lines().next()` looks only at
the first line.  The spec-worded computation yields `"Second line"`,
differing from the code. -/
theorem C8_counterexample_second_line :
    plain_title "\nSecond line".toList "note.txt".toList = "note.txt".toList ∧
    plain_title_of_spec "\nSecond line".toList "note.txt".toList = "Second line".toList ∧
    plain_title "\nSecond line".toList "note.txt".toList
      ≠ plain_title_of_spec "\nSecond line".toList "note.txt".toList := by decide

/-- C8 (amended): the plain-text title is the trimmed FIRST line of the
file when that is non-empty; otherwise (first line blank, or file empty)
it is the file name — later lines are never consulted. -/
theorem C8_first_line_title (raw name : List Char) :
    ((linesOf raw).head? = none → plain_title raw name = name) ∧
    (∀ l, (linesOf raw).head? = some l →
      (trimChars l = [] → plain_title raw name = name) ∧
      (trimChars l ≠ [] → plain_title raw name = trimChars l)) := by
  constructor
  · intro h
    rw [plain_title, h]
  · intro l hl
    constructor
    · intro ht
      rw [plain_title, hl]
      simp [ht]
    · intro ht
      have : (trimChars l).isEmpty = false := by
        cases hh : trimChars l with
        | nil => exact absurd hh ht
        | cons a as => rfl
      rw [plain_title, hl]
      simp [this]

/-- Witness for C8 (amended): a file starting with `"My Title"` is titled
by its trimmed first line. -/
theorem C8_first_line_title_witness :
    (linesOf "My Title\nBody text".toList).head? = some "My Title".toList ∧
    trimChars "My Title".toList ≠ [] ∧
    plain_title "My Title\nBody text".toList "note.txt".toList = trimChars "My Title".toList :=
  ⟨by decide, by decide,
    ((C8_first_line_title "My Title\nBody text".toList "note.txt".toList).2
      "My Title".toList (by decide)).2 (by decide)⟩

/-! ## tantivy_index.rs / commands/search.rs: index availability (claim C3)

`search_index` and `search_pages_for_document` return
`Result<Vec<_>, String>`; both begin with
`if !dir.exists() { return Ok(vec![]); }` (tantivy_index.rs lines
238-239 and 302-303).  The remainder of each function (opening the
index, querying, collecting rows) is abstracted as the `rest` argument:
the claim concerns only the missing-directory path. -/

/-- Row of a search result (models.rs `SearchResult`, fields relevant to
the availability claim elided to the row as a whole). -/
structure SearchRow where
  title : String
  path : String
  snippet : String
deriving DecidableEq

/-- Missing-directory gate of `search_index` (tantivy_index.rs lines
236-297): when the index directory does not exist the function returns
`Ok(vec![])`; otherwise it proceeds with the real query, abstracted as
`rest`. -/
def search_index_gate (dirExists : Bool) (rest : Except String (List SearchRow)) :
    Except String (List SearchRow) :=
  if dirExists = false then Except.ok [] else rest

/-- Missing-directory gate of `search_pages_for_document`
(tantivy_index.rs lines 300-354), returning page numbers. -/
def search_pages_gate (dirExists : Bool) (rest : Except String (List Nat)) :
    Except String (List Nat) :=
  if dirExists = false then Except.ok [] else rest

/-- Dispatch of the `search` command (commands/search.rs lines 24-27):
the caller checks the index directory's existence ITSELF and only calls
the index engine when the directory exists; otherwise it runs the
direct folder scan.  The fallback is not triggered by any signal coming
back from the engine. -/
def search_command_dispatch (dirExists : Bool)
    (indexResult : Except String (List SearchRow)) (scanResult : List SearchRow) :
    Except String (List SearchRow) :=
  if dirExists then search_index_gate dirExists indexResult else Except.ok scanResult

/-! ## Claim C3: "unavailable" signal -/

/-- C3 as stated is false: with no index directory, `search_index` and
`search_pages_for_document` both return `Ok([])` — exactly the value an
existing index with zero matching documents produces — so the caller
cannot distinguish "index unavailable" from an ordinary empty success by
looking at the result.  Shown at concrete inputs: the missing-directory
result coincides with the present-directory empty result. -/
theorem C3_counterexample_ok_empty :
    search_index_gate false (Except.ok [⟨"t", "p", "s"⟩]) = Except.ok [] ∧
    search_index_gate true (Except.ok []) = Except.ok [] ∧
    search_index_gate false (Except.ok [⟨"t", "p", "s"⟩])
      = search_index_gate true (Except.ok []) ∧
    search_pages_gate false (Except.ok [3, 7]) = Except.ok [] ∧
    search_pages_gate false (Except.ok [3, 7]) = search_pages_gate true (Except.ok []) := by
  refine ⟨rfl, rfl, rfl, rfl, rfl⟩

/-- C3 (amended): when the index directory does not exist, both query
functions return the ordinary successful empty result `Ok([])` (never an
error and never a distinguished signal), and the caller falls back to
the direct-scan strategy by testing the index directory's existence
itself before invoking the engine, not by inspecting the engine's
result. -/
theorem C3_missing_dir_empty_ok :
    (∀ rest : Except String (List SearchRow), search_index_gate false rest = Except.ok []) ∧
    (∀ rest : Except String (List Nat), search_pages_gate false rest = Except.ok []) ∧
    (∀ (indexResult : Except String (List SearchRow)) (scanResult : List SearchRow),
      search_command_dispatch false indexResult scanResult = Except.ok scanResult) ∧
    (∀ (indexResult : Except String (List SearchRow)) (scanResult : List SearchRow),
      search_command_dispatch true indexResult scanResult = indexResult) := by
  refine ⟨fun rest => rfl, fun rest => rfl, fun i s => rfl, fun i s => rfl⟩

/-! ## extract_pdf.rs: cache key and staleness (claim C7)

`extract_pdf_pages_cached` (extract_pdf.rs lines 109-147) reads the
cache entry stored under `cache_key(path, mtime, size)` and reuses it
only when the entry's stored `(mtime_secs, size)` equal the file's
current fingerprint.  Filesystem reads and the two extractors are
modelled as explicit inputs: `cached` is the parsed content of the cache
file at the key (None = file absent or JSON parse failure),
`pdfiumRes`/`lopdfRes` are the outcomes of `extract_with_pdfium` /
`extract_with_lopdf` on this path (None = Err). -/

/-- Persisted cache entry (`PdfCacheFile`, extract_pdf.rs lines 82-89). -/
structure PdfCacheFile where
  title : String
  pages : List (Nat × String)
  mtime_secs : Nat
  size : Nat
  which : Option String
deriving DecidableEq

/-- Embedding of `cache_key` (extract_pdf.rs lines 101-107).  The code
feeds exactly `(path, mtime, size)` into the hasher and uses the digest
as the file name; the model keeps the hashed triple itself (an injective
renaming — hash collisions are not modelled; the reuse decision
additionally revalidates the stored fingerprint, line 123). -/
def cache_key (path : String) (mtime size : Nat) : String × Nat × Nat :=
  (path, mtime, size)

/-- Result triple of `extract_pdf_pages`: (title, pages, extractor name). -/
abbrev PdfExtract := String × List (Nat × String) × String

/-- Embedding of `extract_pdf_pages` (extract_pdf.rs lines 16-21):
prefer pdfium, fall back to lopdf, propagate failure when both fail. -/
def extract_pdf_pages (pdfiumRes lopdfRes : Option (String × List (Nat × String))) :
    Option PdfExtract :=
  match pdfiumRes with
  | some (t, p) => some (t, p, "pdfium")
  | none =>
    match lopdfRes with
    | some (t, p) => some (t, p, "lopdf")
    | none => none

/-- Page-cap truncation (`pages.truncate(max_pages)` guarded by a length
test, extract_pdf.rs lines 128, 134, 141). -/
def truncPages (pages : List (Nat × String)) (max_pages : Nat) : List (Nat × String) :=
  if pages.length > max_pages then pages.take max_pages else pages

/-- Embedding of `extract_pdf_pages_cached` (extract_pdf.rs lines
109-147).  The returned Bool records whether a fresh extraction pass ran
(pdfium upgrade or full extraction); `false` means the cached pages were
returned untouched.  The opportunistic `maybe_prune_cache` calls do not
affect this value and are modelled separately (claims C2/C10). -/
def extract_pdf_pages_cached (cached : Option PdfCacheFile) (mtime size : Nat)
    (pdfiumRes lopdfRes : Option (String × List (Nat × String))) (max_pages : Nat) :
    Option (PdfExtract × Bool) :=
  match cached with
  | some c =>
    if c.mtime_secs = mtime ∧ c.size = size then
      if c.which.getD "cache" ≠ "pdfium" then
        match pdfiumRes with
        | some (t, p) => some ((t, truncPages p max_pages, "pdfium"), true)
        | none => some ((c.title, truncPages c.pages max_pages, c.which.getD "cache"), false)
      else some ((c.title, truncPages c.pages max_pages, c.which.getD "cache"), false)
    else
      (extract_pdf_pages pdfiumRes lopdfRes).map
        (fun r => ((r.1, truncPages r.2.1 max_pages, r.2.2), true))
  | none =>
    (extract_pdf_pages pdfiumRes lopdfRes).map
      (fun r => ((r.1, truncPages r.2.1 max_pages, r.2.2), true))

/-! ## Claim C7: staleness is exactly fingerprint equality -/

/-- C7: (1) the cached pages are returned without a fresh extraction pass
only when the entry's stored `(mtime, size)` both equal the file's
current fingerprint; (2) whenever either differs, the result is exactly
a fresh run of the extractor chain (flagged as a fresh pass) — the entry
is ignored; (3) the cache key is precisely the `(path, mtime, size)`
triple, so changing mtime or size changes the key.  The decision inputs
are only the fingerprint fields — no content hash is consulted. -/
theorem C7_fingerprint_staleness :
    (∀ (c : PdfCacheFile) (mtime size : Nat) pdfiumRes lopdfRes (max_pages : Nat) r,
      extract_pdf_pages_cached (some c) mtime size pdfiumRes lopdfRes max_pages
          = some (r, false) →
      c.mtime_secs = mtime ∧ c.size = size) ∧
    (∀ (c : PdfCacheFile) (mtime size : Nat) pdfiumRes lopdfRes (max_pages : Nat),
      ¬(c.mtime_secs = mtime ∧ c.size = size) →
      extract_pdf_pages_cached (some c) mtime size pdfiumRes lopdfRes max_pages
        = (extract_pdf_pages pdfiumRes lopdfRes).map
            (fun r => ((r.1, truncPages r.2.1 max_pages, r.2.2), true))) ∧
    (∀ (path : String) (m s m' s' : Nat),
      cache_key path m s = cache_key path m' s' ↔ m = m' ∧ s = s') := by
  refine ⟨?_, ?_, ?_⟩
  · intro c mtime size pdfiumRes lopdfRes max_pages r h
    simp only [extract_pdf_pages_cached] at h
    by_cases heq : c.mtime_secs = mtime ∧ c.size = size
    · exact heq
    · rw [if_neg heq] at h
      exfalso
      cases hp : extract_pdf_pages pdfiumRes lopdfRes with
      | none => rw [hp] at h; simp at h
      | some v => rw [hp] at h; simp at h
  · intro c mtime size pdfiumRes lopdfRes max_pages h
    simp only [extract_pdf_pages_cached]
    rw [if_neg h]
  · intro path m s m' s'
    constructor
    · intro h
      rw [cache_key, cache_key] at h
      simp only [Prod.mk.injEq] at h
      exact ⟨h.2.1, h.2.2⟩
    · intro h
      rw [cache_key, cache_key, h.1, h.2]

/-- Witness for C7: a cache entry fingerprinted `(100, 5)` against a file
now fingerprinted `(101, 5)` (touched mtime, same size and content) is
ignored and a fresh extraction runs. -/
theorem C7_fingerprint_staleness_witness :
    ¬((⟨"T", [(1, "body")], 100, 5, some "pdfium"⟩ : PdfCacheFile).mtime_secs = 101 ∧
      (⟨"T", [(1, "body")], 100, 5, some "pdfium"⟩ : PdfCacheFile).size = 5) ∧
    extract_pdf_pages_cached (some ⟨"T", [(1, "body")], 100, 5, some "pdfium"⟩) 101 5
        (some ("T", [(1, "body")])) none 300
      = (extract_pdf_pages (some ("T", [(1, "body")])) none).map
          (fun r => ((r.1, truncPages r.2.1 300, r.2.2), true)) :=
  ⟨by decide,
    C7_fingerprint_staleness.2.1 ⟨"T", [(1, "body")], 100, 5, some "pdfium"⟩ 101 5
      (some ("T", [(1, "body")])) none 300 (by decide)⟩

/-! ## extract_pdf.rs: prune_cache (claims C2, C10)

`prune_cache(cache_dir, max_bytes, max_age_secs)` (extract_pdf.rs lines
172-216) scans the cache directory, collects the regular files named
`pdf_*.json` with their sizes and mtimes, deletes those older than the
age cutoff, and — if the remaining managed bytes still exceed the byte
budget — deletes the remaining managed entries oldest-mtime-first until
at or under budget.

The directory listing is modelled as a list of entries (distinct paths,
as `read_dir` yields); deletion is modelled by returning the list of
deleted entries.  `fs::remove_file` is assumed to succeed, so the
`p.exists()` re-scan (extract_pdf.rs line 204) keeps exactly the entries
the age pass did not delete.  The running total's per-entry
`saturating_sub` (lines 198, 212) coincides with the truncated Nat
subtraction of the sums used here. -/

/-- One directory entry of the cache directory: its file name, whether it
is a regular file, its byte size, and its mtime in epoch seconds. -/
structure CacheEntry where
  name : List Char
  isFile : Bool
  size : Nat
  mtime : Nat
deriving DecidableEq

/-- Embedding of Rust `str::ends_with` on character lists. -/
def endsList (suffix l : List Char) : Bool := leadsList suffix.reverse l.reverse

/-- Filter applied by `prune_cache` (extract_pdf.rs lines 178-181): only
regular files whose name starts with `"pdf_"` and ends with `".json"`
are managed by the prune. -/
def managed (e : CacheEntry) : Bool :=
  e.isFile && leadsList "pdf_".toList e.name && endsList ".json".toList e.name

/-- Total byte size of a list of entries. -/
def entrySizes (l : List CacheEntry) : Nat := (l.map (fun e => e.size)).sum

/-- Ascending-mtime ordering used by `keep.sort_by_key(|x| x.2)`. -/
def mtimeLeR (a b : CacheEntry) : Prop := a.mtime ≤ b.mtime

instance : DecidableRel mtimeLeR := fun a b => Nat.decLe a.mtime b.mtime

instance : IsTotal CacheEntry mtimeLeR := ⟨fun a b => Nat.le_total a.mtime b.mtime⟩

instance : IsTrans CacheEntry mtimeLeR := ⟨fun a b c hab hbc => Nat.le_trans hab hbc⟩

/-- Age pass of `prune_cache` (extract_pdf.rs lines 195-200): the entries
deleted because their mtime is strictly below the cutoff. -/
def pruneOld (entries : List CacheEntry) (cutoff : Nat) : List CacheEntry :=
  entries.filter (fun e => decide (e.mtime < cutoff))

/-- Entries surviving the age pass (the `p.exists()` re-scan,
extract_pdf.rs lines 202-205). -/
def pruneKeep (entries : List CacheEntry) (cutoff : Nat) : List CacheEntry :=
  entries.filter (fun e => !decide (e.mtime < cutoff))

/-- Budget loop of `prune_cache` (extract_pdf.rs lines 208-213): walk the
mtime-sorted surviving entries, stopping as soon as the running total is
within budget, deleting otherwise.  Returns the deleted entries in
deletion order. -/
def deleteLoop : List CacheEntry → Nat → Nat → List CacheEntry
  | [], _, _ => []
  | e :: rest, total, maxB =>
    if total ≤ maxB then [] else e :: deleteLoop rest (total - e.size) maxB

/-- Core of `prune_cache` on the managed entries (extract_pdf.rs lines
190-214): nothing happens on an empty listing; otherwise the age pass
runs, and the budget loop runs only if the surviving total still exceeds
the budget.  `sort_by_key` (a stable ascending sort by mtime) is
modelled by `List.insertionSort`. -/
def prune_managed (entries : List CacheEntry) (cutoff maxB : Nat) : List CacheEntry :=
  if entries.isEmpty then []
  else
    if entrySizes entries - entrySizes (pruneOld entries cutoff) > maxB then
      pruneOld entries cutoff
        ++ deleteLoop ((pruneKeep entries cutoff).insertionSort mtimeLeR)
            (entrySizes entries - entrySizes (pruneOld entries cutoff)) maxB
    else pruneOld entries cutoff

/-- Embedding of `prune_cache` (extract_pdf.rs lines 172-216), returning
the list of entries it deletes: nothing when the directory is missing,
else the age-then-budget passes over the managed (`pdf_*.json` regular
file) entries, with the cutoff `now_secs().saturating_sub(max_age)`. -/
def prune_cache (dirExists : Bool) (dir : List CacheEntry) (now maxB maxAge : Nat) :
    List CacheEntry :=
  if dirExists = false then [] else prune_managed (dir.filter managed) (now - maxAge) maxB

/-- Directory contents surviving a deletion list (deletion is by path;
entries model distinct paths, so removing an entry removes exactly it). -/
def remainingEntries (dir deleted : List CacheEntry) : List CacheEntry :=
  dir.filter (fun e => !decide (e ∈ deleted))

/-- Bytes occupied by the managed (`pdf_*.json`) entries of a listing. -/
def managedBytes (l : List CacheEntry) : Nat := entrySizes (l.filter managed)

/-! ### Lemmas about the prune model -/

theorem entrySizes_cons (e : CacheEntry) (l : List CacheEntry) :
    entrySizes (e :: l) = e.size + entrySizes l := rfl

theorem entrySizes_filter_split (l : List CacheEntry) (p : CacheEntry → Bool) :
    entrySizes (l.filter p) + entrySizes (l.filter (fun e => !p e)) = entrySizes l := by
  induction l with
  | nil => rfl
  | cons e rest ih =>
    cases hp : p e with
    | true =>
      simp only [List.filter_cons, hp, Bool.not_true, Bool.false_eq_true, if_true, if_false,
        entrySizes_cons]
      omega
    | false =>
      simp only [List.filter_cons, hp, Bool.not_false, Bool.false_eq_true, if_true, if_false,
        entrySizes_cons]
      omega

theorem entrySizes_perm (l l' : List CacheEntry) (h : l.Perm l') :
    entrySizes l = entrySizes l' := by
  unfold entrySizes
  exact (h.map (fun e => e.size)).sum_eq

theorem deleteLoop_subset (l : List CacheEntry) :
    ∀ (total maxB : Nat) (e : CacheEntry), e ∈ deleteLoop l total maxB → e ∈ l := by
  induction l with
  | nil => intro total maxB e h; rw [deleteLoop] at h; exact absurd h (List.not_mem_nil e)
  | cons f rest ih =>
    intro total maxB e h
    rw [deleteLoop] at h
    by_cases hc : total ≤ maxB
    · rw [if_pos hc] at h; exact absurd h (List.not_mem_nil e)
    · rw [if_neg hc] at h
      rcases List.mem_cons.mp h with h | h
      · exact h ▸ List.mem_cons_self f rest
      · exact List.mem_cons_of_mem f (ih _ _ e h)

theorem deleteLoop_take (l : List CacheEntry) :
    ∀ (total maxB : Nat), ∃ k, deleteLoop l total maxB = l.take k := by
  induction l with
  | nil => intro total maxB; exact ⟨0, rfl⟩
  | cons f rest ih =>
    intro total maxB
    by_cases hc : total ≤ maxB
    · exact ⟨0, by rw [deleteLoop, if_pos hc]; rfl⟩
    · obtain ⟨k, hk⟩ := ih (total - f.size) maxB
      exact ⟨k + 1, by rw [deleteLoop, if_neg hc, hk]; rfl⟩

theorem deleteLoop_budget (l : List CacheEntry) :
    ∀ (total maxB : Nat), l.Nodup → total = entrySizes l →
      entrySizes (l.filter (fun e => !decide (e ∈ deleteLoop l total maxB))) ≤ maxB := by
  induction l with
  | nil =>
    intro total maxB _ ht
    subst ht
    exact Nat.zero_le maxB
  | cons f rest ih =>
    intro total maxB hnd ht
    rw [deleteLoop]
    by_cases hc : total ≤ maxB
    · rw [if_pos hc]
      have hall : (f :: rest).filter (fun e => !decide (e ∈ ([] : List CacheEntry)))
          = f :: rest := by
        apply List.filter_eq_self.mpr
        intro a _
        simp
      rw [hall, ← ht]
      exact hc
    · rw [if_neg hc]
      have hfrest : f ∉ rest := (List.nodup_cons.mp hnd).1
      rw [List.filter_cons]
      rw [if_neg (by simp)]
      have hcongr : rest.filter
            (fun e => !decide (e ∈ f :: deleteLoop rest (total - f.size) maxB))
          = rest.filter (fun e => !decide (e ∈ deleteLoop rest (total - f.size) maxB)) := by
        apply List.filter_congr
        intro x hx
        have hxf : x ≠ f := fun hxe => hfrest (hxe ▸ hx)
        simp [List.mem_cons, hxf]
      rw [hcongr]
      apply ih (total - f.size) maxB (List.nodup_cons.mp hnd).2
      rw [ht, entrySizes_cons]
      omega

theorem filter_not_mem_filter (l : List CacheEntry) (p : CacheEntry → Bool) :
    l.filter (fun e => !decide (e ∈ l.filter p)) = l.filter (fun e => !p e) := by
  apply List.filter_congr
  intro x hx
  by_cases hp : p x = true
  · have hmem : x ∈ l.filter p := List.mem_filter.mpr ⟨hx, hp⟩
    simp [hmem, hp]
  · have hmem : x ∉ l.filter p := fun hc => hp (List.mem_filter.mp hc).2
    simp [hmem, Bool.eq_false_iff.mpr hp]

theorem filter_not_mem_append (l D1 D2 : List CacheEntry) :
    l.filter (fun e => !decide (e ∈ D1 ++ D2))
      = (l.filter (fun e => !decide (e ∈ D1))).filter (fun e => !decide (e ∈ D2)) := by
  rw [List.filter_filter]
  apply List.filter_congr
  intro x hx
  by_cases h1 : x ∈ D1 <;> by_cases h2 : x ∈ D2 <;> simp [List.mem_append, h1, h2]

theorem filter_not_mem_pruneOld (entries : List CacheEntry) (cutoff : Nat) :
    entries.filter (fun e => !decide (e ∈ pruneOld entries cutoff))
      = pruneKeep entries cutoff := by
  unfold pruneOld pruneKeep
  exact filter_not_mem_filter entries _

theorem prune_managed_subset (entries : List CacheEntry) (cutoff maxB : Nat)
    (e : CacheEntry) (h : e ∈ prune_managed entries cutoff maxB) : e ∈ entries := by
  rw [prune_managed] at h
  by_cases hE : entries.isEmpty
  · rw [if_pos hE] at h
    exact absurd h (List.not_mem_nil e)
  · rw [if_neg hE] at h
    by_cases hB : entrySizes entries - entrySizes (pruneOld entries cutoff) > maxB
    · rw [if_pos hB] at h
      rcases List.mem_append.mp h with h | h
      · exact (List.mem_filter.mp h).1
      · have hs := deleteLoop_subset _ _ _ _ h
        have hk := (List.perm_insertionSort mtimeLeR _).mem_iff.mp hs
        exact (List.mem_filter.mp hk).1
    · rw [if_neg hB] at h
      exact (List.mem_filter.mp h).1

theorem prune_managed_budget (entries : List CacheEntry) (cutoff maxB : Nat)
    (hnd : entries.Nodup) :
    entrySizes (entries.filter (fun e => !decide (e ∈ prune_managed entries cutoff maxB)))
      ≤ maxB := by
  rw [prune_managed]
  have hsplit := entrySizes_filter_split entries (fun e => decide (e.mtime < cutoff))
  by_cases hE : entries.isEmpty
  · rw [if_pos hE]
    rw [List.isEmpty_iff.mp hE]
    exact Nat.zero_le maxB
  · rw [if_neg hE]
    by_cases hB : entrySizes entries - entrySizes (pruneOld entries cutoff) > maxB
    · rw [if_pos hB]
      rw [filter_not_mem_append]
      rw [filter_not_mem_pruneOld]
      have hperm : ((pruneKeep entries cutoff).insertionSort mtimeLeR).Perm
          (pruneKeep entries cutoff) :=
        List.perm_insertionSort mtimeLeR _
      have hpf := hperm.filter (fun e => !decide (e ∈ deleteLoop
        ((pruneKeep entries cutoff).insertionSort mtimeLeR)
        (entrySizes entries - entrySizes (pruneOld entries cutoff)) maxB))
      rw [entrySizes_perm _ _ hpf.symm]
      have hsz : entrySizes entries - entrySizes (pruneOld entries cutoff)
          = entrySizes ((pruneKeep entries cutoff).insertionSort mtimeLeR) := by
        rw [entrySizes_perm _ _ hperm]
        have : entrySizes (pruneOld entries cutoff) + entrySizes (pruneKeep entries cutoff)
            = entrySizes entries := hsplit
        omega
      rw [hsz]
      exact deleteLoop_budget _ _ maxB (hperm.nodup_iff.mpr (hnd.filter _)) rfl
    · rw [if_neg hB]
      rw [filter_not_mem_pruneOld]
      have hk : entrySizes (pruneOld entries cutoff) + entrySizes (pruneKeep entries cutoff)
          = entrySizes entries := hsplit
      omega

theorem prune_managed_old_deleted (entries : List CacheEntry) (cutoff maxB : Nat)
    (e : CacheEntry) (he : e ∈ entries) (hold : e.mtime < cutoff) :
    e ∈ prune_managed entries cutoff maxB := by
  have hmem : e ∈ pruneOld entries cutoff :=
    List.mem_filter.mpr ⟨he, by simp [hold]⟩
  rw [prune_managed]
  have hE : entries.isEmpty = false := by
    cases entries with
    | nil => exact absurd he (List.not_mem_nil e)
    | cons a as => rfl
  rw [hE]
  simp only [Bool.false_eq_true, if_false]
  by_cases hB : entrySizes entries - entrySizes (pruneOld entries cutoff) > maxB
  · rw [if_pos hB]
    exact List.mem_append_left _ hmem
  · rw [if_neg hB]
    exact hmem

theorem prune_managed_oldest_first (entries : List CacheEntry) (cutoff maxB : Nat)
    (hnd : entries.Nodup) (e f : CacheEntry) (hf : f ∈ entries)
    (hne : ¬ e.mtime < cutoff) (hnf : ¬ f.mtime < cutoff)
    (hdel : e ∈ prune_managed entries cutoff maxB)
    (hkept : f ∉ prune_managed entries cutoff maxB) :
    e.mtime ≤ f.mtime := by
  rw [prune_managed] at hdel hkept
  by_cases hE : entries.isEmpty
  · rw [if_pos hE] at hdel
    exact absurd hdel (List.not_mem_nil e)
  · rw [if_neg hE] at hdel hkept
    by_cases hB : entrySizes entries - entrySizes (pruneOld entries cutoff) > maxB
    · rw [if_pos hB] at hdel hkept
      rcases List.mem_append.mp hdel with hdel | hdel
      · have := (List.mem_filter.mp hdel).2
        simp at this
        exact absurd this hne
      · obtain ⟨k, hk⟩ := deleteLoop_take ((pruneKeep entries cutoff).insertionSort mtimeLeR)
          (entrySizes entries - entrySizes (pruneOld entries cutoff)) maxB
        rw [hk] at hdel
        have hfsort : f ∈ (pruneKeep entries cutoff).insertionSort mtimeLeR :=
          (List.perm_insertionSort mtimeLeR _).mem_iff.mpr
            (List.mem_filter.mpr ⟨hf, by simp [hnf]⟩)
        have hfnotdel : f ∉ ((pruneKeep entries cutoff).insertionSort mtimeLeR).take k := by
          intro hc
          exact hkept (List.mem_append_right _ (hk ▸ hc))
        have hfdrop : f ∈ ((pruneKeep entries cutoff).insertionSort mtimeLeR).drop k := by
          have := List.take_append_drop k ((pruneKeep entries cutoff).insertionSort mtimeLeR)
          rw [← this] at hfsort
          rcases List.mem_append.mp hfsort with hc | hc
          · exact absurd hc hfnotdel
          · exact hc
        have hsorted : List.Pairwise mtimeLeR
            ((pruneKeep entries cutoff).insertionSort mtimeLeR) :=
          List.sorted_insertionSort mtimeLeR (pruneKeep entries cutoff)
        have hsplitp := hsorted
        rw [← List.take_append_drop k ((pruneKeep entries cutoff).insertionSort mtimeLeR)]
          at hsplitp
        exact (List.pairwise_append.mp hsplitp).2.2 e hdel f hfdrop
    · rw [if_neg hB] at hdel
      have := (List.mem_filter.mp hdel).2
      simp at this
      exact absurd this hne

/-! ## Claim C2: prune respects the byte budget, oldest first -/

/-- C2: for an existing cache directory (entries distinct, as `read_dir`
yields) whose managed `pdf_*.json` entries exceed the byte budget, one
run of `prune_cache`: (1) leaves the total bytes of managed cache
entries at most the budget; (2) deletes every managed entry older than
the age cutoff; and (3) among the managed entries the age pass spared,
deletes oldest-modified-first — every deleted one is no newer than every
surviving one. -/
theorem C2_prune_budget_oldest_first (dir : List CacheEntry) (now maxB maxAge : Nat)
    (hnd : dir.Nodup) (hover : maxB < managedBytes dir) :
    managedBytes (remainingEntries dir (prune_cache true dir now maxB maxAge)) ≤ maxB ∧
    (∀ e ∈ dir, managed e = true → e.mtime < now - maxAge →
      e ∈ prune_cache true dir now maxB maxAge) ∧
    (∀ e f : CacheEntry, e ∈ dir → f ∈ dir → managed e = true → managed f = true →
      ¬ e.mtime < now - maxAge → ¬ f.mtime < now - maxAge →
      e ∈ prune_cache true dir now maxB maxAge →
      f ∉ prune_cache true dir now maxB maxAge →
      e.mtime ≤ f.mtime) := by
  have hpc : prune_cache true dir now maxB maxAge
      = prune_managed (dir.filter managed) (now - maxAge) maxB := by
    rw [prune_cache, if_neg (by simp)]
  refine ⟨?_, ?_, ?_⟩
  · rw [hpc]
    have hrem : managedBytes (remainingEntries dir
          (prune_managed (dir.filter managed) (now - maxAge) maxB))
        = entrySizes ((dir.filter managed).filter
            (fun e => !decide (e ∈ prune_managed (dir.filter managed) (now - maxAge) maxB))) := by
      unfold managedBytes remainingEntries
      rw [List.filter_filter, List.filter_filter]
      exact congrArg entrySizes (List.filter_congr fun x _ => Bool.and_comm _ _)
    rw [hrem]
    exact prune_managed_budget (dir.filter managed) (now - maxAge) maxB (hnd.filter _)
  · intro e he hm hold
    rw [hpc]
    exact prune_managed_old_deleted _ _ _ e (List.mem_filter.mpr ⟨he, hm⟩) hold
  · intro e f he hf hme hmf hnolde hnoldf hdel hkept
    rw [hpc] at hdel hkept
    exact prune_managed_oldest_first (dir.filter managed) (now - maxAge) maxB (hnd.filter _)
      e f (List.mem_filter.mpr ⟨hf, hmf⟩) hnolde hnoldf hdel hkept

/-- Witness for C2 at a concrete four-entry directory over budget: one
managed entry is past the age cutoff, the others are not. -/
theorem C2_prune_budget_oldest_first_witness :
    ([⟨"pdf_a.json".toList, true, 100, 10⟩, ⟨"pdf_b.json".toList, true, 100, 25⟩,
      ⟨"pdf_c.json".toList, true, 100, 22⟩,
      ⟨"render_x.png".toList, true, 999, 1⟩] : List CacheEntry).Nodup ∧
    150 < managedBytes [⟨"pdf_a.json".toList, true, 100, 10⟩,
      ⟨"pdf_b.json".toList, true, 100, 25⟩, ⟨"pdf_c.json".toList, true, 100, 22⟩,
      ⟨"render_x.png".toList, true, 999, 1⟩] ∧
    (managedBytes (remainingEntries [⟨"pdf_a.json".toList, true, 100, 10⟩,
        ⟨"pdf_b.json".toList, true, 100, 25⟩, ⟨"pdf_c.json".toList, true, 100, 22⟩,
        ⟨"render_x.png".toList, true, 999, 1⟩]
        (prune_cache true [⟨"pdf_a.json".toList, true, 100, 10⟩,
          ⟨"pdf_b.json".toList, true, 100, 25⟩, ⟨"pdf_c.json".toList, true, 100, 22⟩,
          ⟨"render_x.png".toList, true, 999, 1⟩] 50 150 30)) ≤ 150 ∧
      (∀ e ∈ ([⟨"pdf_a.json".toList, true, 100, 10⟩, ⟨"pdf_b.json".toList, true, 100, 25⟩,
          ⟨"pdf_c.json".toList, true, 100, 22⟩,
          ⟨"render_x.png".toList, true, 999, 1⟩] : List CacheEntry),
        managed e = true → e.mtime < 50 - 30 →
        e ∈ prune_cache true [⟨"pdf_a.json".toList, true, 100, 10⟩,
          ⟨"pdf_b.json".toList, true, 100, 25⟩, ⟨"pdf_c.json".toList, true, 100, 22⟩,
          ⟨"render_x.png".toList, true, 999, 1⟩] 50 150 30) ∧
      (∀ e f : CacheEntry,
        e ∈ ([⟨"pdf_a.json".toList, true, 100, 10⟩, ⟨"pdf_b.json".toList, true, 100, 25⟩,
          ⟨"pdf_c.json".toList, true, 100, 22⟩,
          ⟨"render_x.png".toList, true, 999, 1⟩] : List CacheEntry) →
        f ∈ ([⟨"pdf_a.json".toList, true, 100, 10⟩, ⟨"pdf_b.json".toList, true, 100, 25⟩,
          ⟨"pdf_c.json".toList, true, 100, 22⟩,
          ⟨"render_x.png".toList, true, 999, 1⟩] : List CacheEntry) →
        managed e = true → managed f = true →
        ¬ e.mtime < 50 - 30 → ¬ f.mtime < 50 - 30 →
        e ∈ prune_cache true [⟨"pdf_a.json".toList, true, 100, 10⟩,
          ⟨"pdf_b.json".toList, true, 100, 25⟩, ⟨"pdf_c.json".toList, true, 100, 22⟩,
          ⟨"render_x.png".toList, true, 999, 1⟩] 50 150 30 →
        f ∉ prune_cache true [⟨"pdf_a.json".toList, true, 100, 10⟩,
          ⟨"pdf_b.json".toList, true, 100, 25⟩, ⟨"pdf_c.json".toList, true, 100, 22⟩,
          ⟨"render_x.png".toList, true, 999, 1⟩] 50 150 30 →
        e.mtime ≤ f.mtime)) :=
  ⟨by decide, by decide,
    C2_prune_budget_oldest_first [⟨"pdf_a.json".toList, true, 100, 10⟩,
      ⟨"pdf_b.json".toList, true, 100, 25⟩, ⟨"pdf_c.json".toList, true, 100, 22⟩,
      ⟨"render_x.png".toList, true, 999, 1⟩] 50 150 30 (by decide) (by decide)⟩

/-! ## Claim C10: prune touches only managed `pdf_*.json` files -/

/-- C10: every entry a prune run deletes is a regular file of the cache
directory whose name starts with `"pdf_"` and ends with `".json"`;
every other file or directory entry (e.g. render-image cache files)
survives the run unchanged. -/
theorem C10_prune_only_managed :
    (∀ (dirExists : Bool) (dir : List CacheEntry) (now maxB maxAge : Nat) (e : CacheEntry),
      e ∈ prune_cache dirExists dir now maxB maxAge →
      e ∈ dir ∧ e.isFile = true ∧ leadsList "pdf_".toList e.name = true ∧
        endsList ".json".toList e.name = true) ∧
    (∀ (dirExists : Bool) (dir : List CacheEntry) (now maxB maxAge : Nat) (e : CacheEntry),
      e ∈ dir → managed e = false →
      e ∈ remainingEntries dir (prune_cache dirExists dir now maxB maxAge)) := by
  have hsub : ∀ (dirExists : Bool) (dir : List CacheEntry) (now maxB maxAge : Nat)
      (e : CacheEntry), e ∈ prune_cache dirExists dir now maxB maxAge →
      e ∈ dir ∧ managed e = true := by
    intro dirExists dir now maxB maxAge e h
    rw [prune_cache] at h
    by_cases hd : dirExists = false
    · rw [if_pos hd] at h
      exact absurd h (List.not_mem_nil e)
    · rw [if_neg hd] at h
      exact List.mem_filter.mp (prune_managed_subset _ _ _ e h)
  constructor
  · intro dirExists dir now maxB maxAge e h
    obtain ⟨hdir, hm⟩ := hsub dirExists dir now maxB maxAge e h
    rw [managed, Bool.and_eq_true, Bool.and_eq_true] at hm
    exact ⟨hdir, hm.1.1, hm.1.2, hm.2⟩
  · intro dirExists dir now maxB maxAge e he hm
    apply List.mem_filter.mpr
    refine ⟨he, ?_⟩
    have hnot : e ∉ prune_cache dirExists dir now maxB maxAge := by
      intro hc
      rw [(hsub dirExists dir now maxB maxAge e hc).2] at hm
      exact Bool.noConfusion hm
    simp [hnot]

/-- Witness for C10 on a concrete directory holding one managed cache
file and one render-image file, with a zero byte budget: the managed
file is deleted (and is indeed a `pdf_*.json` regular file), the
render-image file survives. -/
theorem C10_prune_only_managed_witness :
    (⟨"pdf_a.json".toList, true, 10, 5⟩ : CacheEntry)
        ∈ ([⟨"pdf_a.json".toList, true, 10, 5⟩, ⟨"render_x.png".toList, true, 99, 1⟩]
            : List CacheEntry) ∧
      (⟨"pdf_a.json".toList, true, 10, 5⟩ : CacheEntry).isFile = true ∧
      leadsList "pdf_".toList (⟨"pdf_a.json".toList, true, 10, 5⟩ : CacheEntry).name = true ∧
      endsList ".json".toList (⟨"pdf_a.json".toList, true, 10, 5⟩ : CacheEntry).name = true ∧
    (⟨"render_x.png".toList, true, 99, 1⟩ : CacheEntry)
      ∈ remainingEntries
          [⟨"pdf_a.json".toList, true, 10, 5⟩, ⟨"render_x.png".toList, true, 99, 1⟩]
          (prune_cache true
            [⟨"pdf_a.json".toList, true, 10, 5⟩, ⟨"render_x.png".toList, true, 99, 1⟩]
            100 0 1000) :=
  have h1 := C10_prune_only_managed.1 true
    [⟨"pdf_a.json".toList, true, 10, 5⟩, ⟨"render_x.png".toList, true, 99, 1⟩]
    100 0 1000 ⟨"pdf_a.json".toList, true, 10, 5⟩ (by decide)
  have h2 := C10_prune_only_managed.2 true
    [⟨"pdf_a.json".toList, true, 10, 5⟩, ⟨"render_x.png".toList, true, 99, 1⟩]
    100 0 1000 ⟨"render_x.png".toList, true, 99, 1⟩ (by decide) (by decide)
  ⟨h1.1, h1.2.1, h1.2.2.1, h1.2.2.2, h2⟩

/-! ## tantivy_index.rs: incremental_update (claim C1)

`incremental_update` (tantivy_index.rs lines 139-223) loads the previous
fingerprint snapshot, fingerprints the currently enumerated files,
classifies files as changed (current fingerprint differs from the
snapshot, including newly appearing or newly unreadable files) or
deleted (snapshot key no longer fingerprinted), deletes every index
document whose `path` field exactly matches a changed or deleted path
(`writer.delete_term` on the raw `STRING`-typed `path` field — exact
term equality, so all pages of the document go), re-extracts only the
changed files, adds their documents, commits, and persists the new
snapshot.

The filesystem and extractors are explicit inputs: `files` is the
enumeration result, `fp` is `file_fp` (None = metadata unreadable),
`extract` gives the per-file extraction rows (title, page, section,
body); the index is the list of its documents, and deletion-then-
addition within the single writer session yields
`filtered old ++ new`. -/

/-- One document of the index (schema of tantivy_index.rs lines 26-39;
the `section` field is named `sect` here because `section` is reserved
in Lean). -/
structure IndexDoc where
  title : String
  path : String
  page : Option Nat
  sect : Option String
  body : String
deriving DecidableEq

/-- File fingerprint `(mtime_secs, size)` (tantivy_index.rs line 114). -/
abbrev Fp := Nat × Nat

/-- Lookup in the fingerprint snapshot (`HashMap::get`, modelled on an
association list with distinct keys). -/
def lookupFp (m : List (String × Fp)) (k : String) : Option Fp :=
  (m.find? (fun e => decide (e.1 = k))).map (fun e => e.2)

/-- Key-membership in the snapshot (`HashMap::contains_key`). -/
def containsKey (m : List (String × Fp)) (k : String) : Bool :=
  (m.find? (fun e => decide (e.1 = k))).isSome

/-- The `current_fp` map (tantivy_index.rs lines 149-153): a fingerprint
entry for every enumerated file whose metadata is readable. -/
def currentFps (files : List String) (fp : String → Option Fp) : List (String × Fp) :=
  files.filterMap (fun p => (fp p).map (fun v => (p, v)))

/-- The changed files (tantivy_index.rs lines 155-160): current
fingerprint (as an Option) differs from the snapshot's. -/
def changedFiles (files : List String) (fp : String → Option Fp)
    (prev : List (String × Fp)) : List String :=
  files.filter (fun p => !decide (lookupFp (currentFps files fp) p = lookupFp prev p))

/-- The deleted paths (tantivy_index.rs lines 161-165): snapshot keys
with no current fingerprint. -/
def deletedPaths (prev : List (String × Fp)) (files : List String)
    (fp : String → Option Fp) : List String :=
  (prev.map (fun e => e.1)).filter (fun k => !containsKey (currentFps files fp) k)

/-- Documents produced for one extracted file (tantivy_index.rs lines
172-192, 201-215): each extraction row becomes an index document whose
`path` field is exactly the file's path string. -/
def extractDocs (extract : String → List (String × Option Nat × Option String × String))
    (p : String) : List IndexDoc :=
  (extract p).map (fun r => ⟨r.1, p, r.2.1, r.2.2.1, r.2.2.2⟩)

/-- Embedding of `incremental_update` (tantivy_index.rs lines 139-223):
returns the committed index contents and the persisted new snapshot.
All `delete_term` calls precede all `add_document` calls in the single
writer session (lines 195-216), so the committed index is the old one
minus every document whose path is deleted or changed, plus the freshly
extracted documents of the changed files. -/
def incremental_update (prev : List (String × Fp)) (files : List String)
    (fp : String → Option Fp)
    (extract : String → List (String × Option Nat × Option String × String))
    (index : List IndexDoc) : List IndexDoc × List (String × Fp) :=
  (index.filter
      (fun d => !decide (d.path ∈ deletedPaths prev files fp ++ changedFiles files fp prev))
    ++ (changedFiles files fp prev).flatMap (extractDocs extract),
   currentFps files fp)

/-! ### Lemmas about the incremental-update model -/

theorem currentFps_keys (files : List String) (fp : String → Option Fp)
    (q : String) (v : Fp) (h : (q, v) ∈ currentFps files fp) : q ∈ files := by
  obtain ⟨a, ha, hfa⟩ := List.mem_filterMap.mp h
  cases hf : fp a with
  | none => rw [hf] at hfa; exact absurd hfa (by simp)
  | some w =>
    rw [hf] at hfa
    simp only [Option.map_some', Option.some.injEq, Prod.mk.injEq] at hfa
    exact hfa.1 ▸ ha

theorem lookupFp_not_mem (files : List String) (fp : String → Option Fp)
    (p : String) (h : p ∉ files) :
    (currentFps files fp).find? (fun e => decide (e.1 = p)) = none := by
  apply List.find?_eq_none.mpr
  intro x hx
  simp only [decide_eq_true_eq]
  intro hc
  have hxp : (p, x.2) ∈ currentFps files fp := by
    have : x = (p, x.2) := by
      cases x with
      | mk x1 x2 => simp only at hc; rw [hc]
    exact this ▸ hx
  exact h (currentFps_keys files fp p x.2 hxp)

theorem lookupFp_nodup (files : List String) (fp : String → Option Fp)
    (hnd : files.Nodup) (p : String) (hp : p ∈ files) :
    lookupFp (currentFps files fp) p = fp p := by
  induction files with
  | nil => exact absurd hp (List.not_mem_nil p)
  | cons a rest ih =>
    have hna : a ∉ rest := (List.nodup_cons.mp hnd).1
    have hndr : rest.Nodup := (List.nodup_cons.mp hnd).2
    cases hf : fp a with
    | none =>
      have hcur : currentFps (a :: rest) fp = currentFps rest fp := by
        unfold currentFps
        rw [List.filterMap_cons, hf]
        rfl
      rw [hcur]
      rcases List.mem_cons.mp hp with hpa | hpr
      · subst hpa
        rw [lookupFp, lookupFp_not_mem rest fp p hna, hf]
        rfl
      · exact ih hndr hpr
    | some v =>
      have hcur : currentFps (a :: rest) fp = (a, v) :: currentFps rest fp := by
        unfold currentFps
        rw [List.filterMap_cons, hf]
        rfl
      rw [hcur]
      rcases List.mem_cons.mp hp with hpa | hpr
      · subst hpa
        rw [lookupFp, List.find?_cons]
        simp [hf]
      · have hpna : p ≠ a := fun hc => hna (hc ▸ hpr)
        rw [lookupFp, List.find?_cons]
        have hdec : (decide ((a, v).1 = p)) = false := by
          simp only [decide_eq_false_iff_not]
          exact fun hc => hpna hc.symm
        rw [hdec]
        exact ih hndr hpr

theorem containsKey_of_lookup_some (m : List (String × Fp)) (k : String) (v : Fp)
    (h : lookupFp m k = some v) : containsKey m k = true := by
  rw [lookupFp] at h
  rw [containsKey]
  cases hf : m.find? (fun e => decide (e.1 = k)) with
  | none => rw [hf] at h; exact absurd h (by simp)
  | some e => rfl

theorem lookup_some_of_mem_keys (m : List (String × Fp)) (k : String)
    (h : k ∈ m.map (fun e => e.1)) : containsKey m k = true := by
  obtain ⟨e, he, hek⟩ := List.mem_map.mp h
  rw [containsKey]
  cases hf : m.find? (fun e => decide (e.1 = k)) with
  | none =>
    have := List.find?_eq_none.mp hf e he
    simp [hek] at this
  | some x => rfl

theorem flatMap_extractDocs_path (extract : String → List (String × Option Nat × Option String × String))
    (changed : List String) (d : IndexDoc)
    (h : d ∈ changed.flatMap (extractDocs extract)) : d.path ∈ changed := by
  obtain ⟨q, hq, hd⟩ := List.mem_flatMap.mp h
  obtain ⟨r, _, hr⟩ := List.mem_map.mp hd
  rw [← hr]
  exact hq

theorem filter_flatMap_extractDocs
    (extract : String → List (String × Option Nat × Option String × String)) :
    ∀ (changed : List String), changed.Nodup → ∀ q ∈ changed,
      (changed.flatMap (extractDocs extract)).filter (fun d => decide (d.path = q))
        = extractDocs extract q := by
  intro changed
  induction changed with
  | nil => intro _ q hq; exact absurd hq (List.not_mem_nil q)
  | cons a rest ih =>
    intro hnd q hq
    have hna : a ∉ rest := (List.nodup_cons.mp hnd).1
    rw [List.flatMap_cons, List.filter_append]
    rcases List.mem_cons.mp hq with hqa | hqr
    · subst hqa
      have h1 : (extractDocs extract q).filter (fun d => decide (d.path = q))
          = extractDocs extract q := by
        apply List.filter_eq_self.mpr
        intro d hd
        obtain ⟨r, _, hr⟩ := List.mem_map.mp hd
        simp [← hr]
      have h2 : (rest.flatMap (extractDocs extract)).filter (fun d => decide (d.path = q))
          = [] := by
        apply List.filter_eq_nil_iff.mpr
        intro d hd
        have := flatMap_extractDocs_path extract rest d hd
        simp only [decide_eq_true_eq]
        intro hc
        exact hna (hc ▸ this)
      rw [h1, h2, List.append_nil]
    · have hqa : q ≠ a := fun hc => hna (hc ▸ hqr)
      have h1 : (extractDocs extract a).filter (fun d => decide (d.path = q)) = [] := by
        apply List.filter_eq_nil_iff.mpr
        intro d hd
        obtain ⟨r, _, hr⟩ := List.mem_map.mp hd
        simp only [decide_eq_true_eq]
        intro hc
        rw [← hr] at hc
        exact hqa hc.symm
      rw [h1, List.nil_append]
      exact ih (List.nodup_cons.mp hnd).2 q hqr

/-! ## Claim C1: incremental update consistency -/

/-- C1: after `incremental_update` over distinct enumerated files:
(a) for a path recorded in the snapshot but no longer present among the
files, no document with exactly that path remains (exact-path deletion
removes all its pages, and nothing re-adds it); (b) for a present file
whose fingerprint differs from the snapshot, the documents with its path
are exactly the freshly extracted ones; (c) for a present file whose
fingerprint is unchanged, the documents with its path are untouched; and
the returned snapshot is the current fingerprint map. -/
theorem C1_incremental_consistency (prev : List (String × Fp)) (files : List String)
    (fp : String → Option Fp)
    (extract : String → List (String × Option Nat × Option String × String))
    (index : List IndexDoc) (hnd : files.Nodup) :
    (∀ pD, pD ∈ prev.map (fun e => e.1) → pD ∉ files →
      ∀ d ∈ (incremental_update prev files fp extract index).1, d.path ≠ pD) ∧
    (∀ q, q ∈ files → fp q ≠ lookupFp prev q →
      (incremental_update prev files fp extract index).1.filter
          (fun d => decide (d.path = q))
        = extractDocs extract q) ∧
    (∀ r, r ∈ files → fp r = lookupFp prev r →
      (incremental_update prev files fp extract index).1.filter
          (fun d => decide (d.path = r))
        = index.filter (fun d => decide (d.path = r))) ∧
    (incremental_update prev files fp extract index).2 = currentFps files fp := by
  refine ⟨?_, ?_, ?_, rfl⟩
  · intro pD hprev hnofile d hd hpath
    rw [incremental_update] at hd
    rcases List.mem_append.mp hd with hk | hn
    · have hdel : pD ∈ deletedPaths prev files fp := by
        apply List.mem_filter.mpr
        refine ⟨hprev, ?_⟩
        rw [containsKey, lookupFp_not_mem files fp pD hnofile]
        rfl
      have := (List.mem_filter.mp hk).2
      rw [hpath] at this
      simp only [Bool.not_eq_true', decide_eq_false_iff_not] at this
      exact this (List.mem_append_left _ hdel)
    · have := flatMap_extractDocs_path extract _ d hn
      have hqf : d.path ∈ files :=
        (List.mem_filter.mp this).1
      rw [hpath] at hqf
      exact hnofile hqf
  · intro q hq hdiff
    have hchanged : q ∈ changedFiles files fp prev := by
      apply List.mem_filter.mpr
      refine ⟨hq, ?_⟩
      rw [lookupFp_nodup files fp hnd q hq]
      simp only [Bool.not_eq_true', decide_eq_false_iff_not]
      exact hdiff
    rw [incremental_update]
    simp only [List.filter_append]
    have h1 : (index.filter
        (fun d => !decide (d.path ∈ deletedPaths prev files fp ++ changedFiles files fp prev))).filter
          (fun d => decide (d.path = q)) = [] := by
      apply List.filter_eq_nil_iff.mpr
      intro d hd
      have := (List.mem_filter.mp hd).2
      simp only [Bool.not_eq_true', decide_eq_false_iff_not] at this
      simp only [decide_eq_true_eq]
      intro hc
      exact this (List.mem_append_right _ (hc ▸ hchanged))
    rw [h1, List.nil_append]
    exact filter_flatMap_extractDocs extract (changedFiles files fp prev)
      (hnd.filter _) q hchanged
  · intro r hr hsame
    have hnotchanged : r ∉ changedFiles files fp prev := by
      intro hc
      have := (List.mem_filter.mp hc).2
      rw [lookupFp_nodup files fp hnd r hr] at this
      simp only [Bool.not_eq_true', decide_eq_false_iff_not] at this
      exact this hsame
    have hnotdeleted : r ∉ deletedPaths prev files fp := by
      intro hc
      have hck := (List.mem_filter.mp hc).2
      cases hf : fp r with
      | some v =>
        have hl : lookupFp (currentFps files fp) r = some v :=
          (lookupFp_nodup files fp hnd r hr).trans hf
        rw [containsKey_of_lookup_some _ _ _ hl] at hck
        exact Bool.noConfusion hck
      | none =>
        have hkeys := (List.mem_filter.mp hc).1
        have hck2 := lookup_some_of_mem_keys prev r hkeys
        have hlp : lookupFp prev r = none := by rw [← hsame, hf]
        rw [lookupFp] at hlp
        rw [containsKey] at hck2
        cases hff : prev.find? (fun e => decide (e.1 = r)) with
        | none => rw [hff] at hck2; exact Bool.noConfusion hck2
        | some e => rw [hff] at hlp; exact Option.noConfusion hlp
    have hnm : r ∉ deletedPaths prev files fp ++ changedFiles files fp prev := by
      intro hc
      rcases List.mem_append.mp hc with hc | hc
      · exact hnotdeleted hc
      · exact hnotchanged hc
    rw [incremental_update]
    simp only [List.filter_append]
    have h2 : ((changedFiles files fp prev).flatMap (extractDocs extract)).filter
        (fun d => decide (d.path = r)) = [] := by
      apply List.filter_eq_nil_iff.mpr
      intro d hd
      have hp := flatMap_extractDocs_path extract _ d hd
      simp only [decide_eq_true_eq]
      intro hcc
      exact hnotchanged (hcc ▸ hp)
    rw [h2, List.append_nil, List.filter_filter]
    apply List.filter_congr
    intro d _
    by_cases hdp : d.path = r
    · simp [hdp, hnm]
    · simp [hdp]

/-- Witness for C1 at a concrete scenario: snapshot has files `"a"`,
`"b"`, `"c"`; now `"a"` is deleted, `"b"` is modified (mtime bumped),
`"c"` is unchanged. -/
theorem C1_incremental_consistency_witness :
    (["b", "c"] : List String).Nodup ∧
    ((∀ pD, pD ∈ ([("a", ((1, 1) : Fp)), ("b", (1, 1)), ("c", (1, 1))]).map (fun e => e.1) →
        pD ∉ (["b", "c"] : List String) →
        ∀ d ∈ (incremental_update [("a", (1, 1)), ("b", (1, 1)), ("c", (1, 1))] ["b", "c"]
            (fun p => if p = "b" then some (2, 1) else if p = "c" then some (1, 1) else none)
            (fun p => [("t", some 1, none, p)])
            [⟨"t", "a", none, none, "A"⟩, ⟨"t", "b", none, none, "B"⟩,
              ⟨"t", "c", none, none, "C"⟩]).1, d.path ≠ pD) ∧
      (∀ q, q ∈ (["b", "c"] : List String) →
        (fun p => if p = "b" then some (2, 1) else if p = "c" then some ((1, 1) : Fp)
          else none) q ≠ lookupFp [("a", (1, 1)), ("b", (1, 1)), ("c", (1, 1))] q →
        (incremental_update [("a", (1, 1)), ("b", (1, 1)), ("c", (1, 1))] ["b", "c"]
            (fun p => if p = "b" then some (2, 1) else if p = "c" then some (1, 1) else none)
            (fun p => [("t", some 1, none, p)])
            [⟨"t", "a", none, none, "A"⟩, ⟨"t", "b", none, none, "B"⟩,
              ⟨"t", "c", none, none, "C"⟩]).1.filter (fun d => decide (d.path = q))
          = extractDocs (fun p => [("t", some 1, none, p)]) q) ∧
      (∀ r, r ∈ (["b", "c"] : List String) →
        (fun p => if p = "b" then some (2, 1) else if p = "c" then some ((1, 1) : Fp)
          else none) r = lookupFp [("a", (1, 1)), ("b", (1, 1)), ("c", (1, 1))] r →
        (incremental_update [("a", (1, 1)), ("b", (1, 1)), ("c", (1, 1))] ["b", "c"]
            (fun p => if p = "b" then some (2, 1) else if p = "c" then some (1, 1) else none)
            (fun p => [("t", some 1, none, p)])
            [⟨"t", "a", none, none, "A"⟩, ⟨"t", "b", none, none, "B"⟩,
              ⟨"t", "c", none, none, "C"⟩]).1.filter (fun d => decide (d.path = r))
          = [⟨"t", "a", none, none, "A"⟩, ⟨"t", "b", none, none, "B"⟩,
              ⟨"t", "c", none, none, "C"⟩].filter (fun d => decide (d.path = r))) ∧
      (incremental_update [("a", (1, 1)), ("b", (1, 1)), ("c", (1, 1))] ["b", "c"]
          (fun p => if p = "b" then some (2, 1) else if p = "c" then some (1, 1) else none)
          (fun p => [("t", some 1, none, p)])
          [⟨"t", "a", none, none, "A"⟩, ⟨"t", "b", none, none, "B"⟩,
            ⟨"t", "c", none, none, "C"⟩]).2
        = currentFps ["b", "c"]
            (fun p => if p = "b" then some (2, 1) else if p = "c" then some (1, 1)
              else none)) :=
  ⟨by decide,
    C1_incremental_consistency [("a", (1, 1)), ("b", (1, 1)), ("c", (1, 1))] ["b", "c"]
      (fun p => if p = "b" then some (2, 1) else if p = "c" then some (1, 1) else none)
      (fun p => [("t", some 1, none, p)])
      [⟨"t", "a", none, none, "A"⟩, ⟨"t", "b", none, none, "B"⟩, ⟨"t", "c", none, none, "C"⟩]
      (by decide)⟩

end QuietLibrary
